import Mathlib

/-
Shallow embedding of `scripts/update_news.py` (news merge/dedup pipeline).

Strings are modeled as `List Char`. The relevant Python string and regex
operations are embedded as executable Lean functions:

* `str.lower()` is modeled by `lowerChar` on each character (ASCII case
  mapping; the data handled by the script - DOIs, URLs, ISO dates - is ASCII).
* `str.rstrip("/")` is `rstripSlash`.
* `re.sub(r"v\d+$", "", s)` is `stripV`; like Python's `$` (no MULTILINE),
  the suffix may also sit directly before a final newline character.
* `re.finditer(r"(10\.\d{4,9}/[^\s,;]+)", url)` is `findDoiMatches`: a left
  to right scan producing the non-overlapping greedy matches.  `\d`, `\s`
  and `\w` are modeled by their ASCII meaning.
* `re.search` for the nature/arxiv publisher patterns is `natureSearch` /
  `arxivSearch` (leftmost match, greedy captures).
* Python `set`s of DOI strings are modeled as `List (List Char)` used only
  through membership (`contains` / `any`), which matches set semantics.
* News items / raw papers (JSON-ish dicts) are structures; a missing or
  `None` url on a news item is modeled as the empty list, which is
  equivalent for every use in the script (both are falsy and the string is
  only inspected when truthy).  Genuinely optional fields that the script
  distinguishes (`link_text`, `paperId`, ...) use `Option`.
* `list.sort(key=..., reverse=True)` (a stable descending sort) is modeled
  by `List.insertionSort` with the reversed comparison; for a total
  transitive comparison a stable sort is unique, so this is faithful.
* `update_index_html` reads and writes `index.html`; it is modeled as a
  pure function from (fragment, current content) to (changed?, content
  after the call), where an unchanged second component means no write.
-/

namespace UpdateNews

/-! ### ASCII character classes for the Python string/regex primitives -/

/-- ASCII case mapping of `str.lower()`. -/
def lowerChar (c : Char) : Char :=
  if 65 ≤ c.toNat ∧ c.toNat ≤ 90 then Char.ofNat (c.toNat + 32) else c

/-- ASCII whitespace, Python's `\s` class and `str.strip()` default. -/
def isPySpace (c : Char) : Bool :=
  c == ' ' || c == '\t' || c == '\n' || c == '\r' || c == '\x0b' || c == '\x0c'

/-- The class `[^\s,;]` from the DOI pattern. -/
def isDoiTailChar (c : Char) : Bool :=
  !(isPySpace c || c == ',' || c == ';')

/-- ASCII `\w`: letters, digits and underscore. -/
def isWordChar (c : Char) : Bool :=
  c.isAlphanum || c == '_'

/-- The class `[\w.-]` from the nature pattern. -/
def isNatureIdChar (c : Char) : Bool :=
  isWordChar c || c == '.' || c == '-'

/-- The class `[\d.]` from the arxiv pattern. -/
def isArxivIdChar (c : Char) : Bool :=
  c.isDigit || c == '.'

/-! ### `normalize_doi` -/

/-- Python `s.rstrip("/")`: remove every trailing slash. -/
def rstripSlash (l : List Char) : List Char :=
  (l.reverse.dropWhile (fun c => c == '/')).reverse

/-- Remove a `v<digits>` suffix from a reversed string: helper for `stripV`.
The input is the reversed text in front of the `$` anchor position. -/
def stripVRev (r : List Char) : List Char :=
  if (r.takeWhile Char.isDigit).isEmpty then r
  else
    match r.drop (r.takeWhile Char.isDigit).length with
    | c :: r2 => if c = 'v' then r2 else r
    | [] => r

/-- Python `re.sub(r"v\d+$", "", s)`: delete the rightmost run of digits
preceded by `v` that ends at the end of the string (or, as with Python's
`$`, directly before a terminating newline). -/
def stripV (l : List Char) : List Char :=
  match l.reverse with
  | [] => []
  | c :: r =>
    if c = '\n' then (stripVRev r).reverse ++ ['\n']
    else (stripVRev (c :: r)).reverse

/-- Does `v\d+$` match in `r.reverse` with the anchor at the start of `r`?
Mirrors `stripVRev`: true exactly when `stripVRev` removes something. -/
def hasVSuffixRev (r : List Char) : Bool :=
  if (r.takeWhile Char.isDigit).isEmpty then false
  else
    match r.drop (r.takeWhile Char.isDigit).length with
    | c :: _ => c == 'v'
    | [] => false

/-- Does the pattern `v\d+$` (Python `$`: end of string, or just before a
terminating newline) match in `l`? -/
def hasVSuffix (l : List Char) : Bool :=
  match l.reverse with
  | [] => false
  | c :: r => if c = '\n' then hasVSuffixRev r else hasVSuffixRev (c :: r)

/-- `normalize_doi` from the script: lowercase, strip trailing slashes,
then strip a trailing `v<digits>` version suffix. -/
def normalize_doi (doi : List Char) : List Char :=
  stripV (rstripSlash (doi.map lowerChar))

/-! ### `extract_dois` -/

/-- Attempt to match `10\.\d{4,9}/[^\s,;]+` at the head of `l`.  On success
returns the matched text and the remainder of the input after the match.
The digit group is greedy; backtracking cannot help it because every
shorter digit count leaves a digit (never `/`) as the next character, so
a match exists exactly when the full digit run has length 4..9 and is
followed by `/` and at least one tail character. -/
def matchDoiHere : List Char → Option (List Char × List Char)
  | '1' :: '0' :: '.' :: rest =>
    let ds := rest.takeWhile Char.isDigit
    let n := ds.length
    if 4 ≤ n ∧ n ≤ 9 then
      match rest.drop n with
      | '/' :: rest2 =>
        let t := rest2.takeWhile isDoiTailChar
        if t.isEmpty then none
        else some ('1' :: '0' :: '.' :: (ds ++ '/' :: t), rest2.drop t.length)
      | _ => none
    else none
  | _ => none

/-- Fueled scan for `re.finditer`: try a match at each position, emit it and
continue after its end (non-overlapping), else advance one character. -/
def findDoiAux : Nat → List Char → List (List Char)
  | 0, _ => []
  | _ + 1, [] => []
  | fuel + 1, c :: rest =>
    match matchDoiHere (c :: rest) with
    | some (m, r) => m :: findDoiAux fuel r
    | none => findDoiAux fuel rest

/-- All non-overlapping matches of the DOI pattern in `l`, left to right.
`l.length + 1` fuel always suffices: every step shortens the input. -/
def findDoiMatches (l : List Char) : List (List Char) :=
  findDoiAux (l.length + 1) l

/-- Does the DOI pattern match anywhere in `l`?  (Scans every position.) -/
def containsDoiMatch : List Char → Bool
  | [] => false
  | c :: rest => (matchDoiHere (c :: rest)).isSome || containsDoiMatch rest

/-- The literal part of the nature pattern. -/
def natureLit : List Char := "nature.com/articles/".toList

/-- Attempt to match `nature\.com/articles/(s[\w.-]+)` at the head of `l`;
returns the capture group. -/
def tryNatureHere (l : List Char) : Option (List Char) :=
  if natureLit.isPrefixOf l then
    match l.drop natureLit.length with
    | 's' :: rest =>
      let run := rest.takeWhile isNatureIdChar
      if run.isEmpty then none else some ('s' :: run)
    | _ => none
  else none

/-- `re.search` for the nature pattern: leftmost match's capture group. -/
def natureSearch : List Char → Option (List Char)
  | [] => none
  | c :: rest =>
    match tryNatureHere (c :: rest) with
    | some cap => some cap
    | none => natureSearch rest

/-- The literal part of the arxiv pattern. -/
def arxivLit : List Char := "arxiv.org/abs/".toList

/-- Attempt to match `arxiv\.org/abs/([\d.]+)` at the head of `l`; returns
the capture group. -/
def tryArxivHere (l : List Char) : Option (List Char) :=
  if arxivLit.isPrefixOf l then
    let run := (l.drop arxivLit.length).takeWhile isArxivIdChar
    if run.isEmpty then none else some run
  else none

/-- `re.search` for the arxiv pattern: leftmost match's capture group. -/
def arxivSearch : List Char → Option (List Char)
  | [] => none
  | c :: rest =>
    match tryArxivHere (c :: rest) with
    | some cap => some cap
    | none => arxivSearch rest

/-- A normalized DOI together with its progressively shorter `/`-prefix
versions: `parts = normalized.split("/")`, adding `"/".join(parts[:i])`
for every `i` in `range(2, len(parts))`. -/
def doiWithPrefixes (normalized : List Char) : List (List Char) :=
  let parts := normalized.splitOn '/'
  normalized ::
    ((List.range parts.length).drop 2).map
      (fun i => List.intercalate ['/'] (parts.take i))

/-- `extract_dois` from the script.  The result list is used only through
membership, which makes it a faithful model of the Python `set`. -/
def extract_dois (url : List Char) : List (List Char) :=
  if url.isEmpty then []
  else
    ((findDoiMatches url).flatMap (fun m => doiWithPrefixes (normalize_doi m)))
    ++ (match natureSearch url with
        | some cap => [normalize_doi ("10.1038/".toList ++ cap)]
        | none => [])
    ++ (match arxivSearch url with
        | some cap => ["10.48550/arxiv.".toList ++ cap]
        | none => [])

/-- `doi_overlap` from the script: do the two DOI sets intersect? -/
def doi_overlap (a b : List (List Char)) : Bool :=
  a.any (fun d => b.contains d)

/-! ### News items and `merge_news` -/

/-- A news item dict.  `url = []` models a missing, `None` or empty url
(all falsy and interchangeable for this script). -/
structure NewsItem where
  date : List Char
  text : List Char
  url : List Char
  source : List Char
  paper_id : Option (List Char)
  link_text : Option (List Char)
deriving DecidableEq

/-- The urls seeded from the manual items (`if url:` guards the insert). -/
def manualUrls (manual : List NewsItem) : List (List Char) :=
  (manual.filter (fun i => !i.url.isEmpty)).map (fun i => rstripSlash i.url)

/-- The DOIs seeded from the manual items. -/
def manualDois (manual : List NewsItem) : List (List Char) :=
  (manual.filter (fun i => !i.url.isEmpty)).flatMap (fun i => extract_dois i.url)

/-- The `for item in auto` loop of `merge_news`: accumulates the merged
list and the tracking url/DOI sets. -/
def mergeLoop :
    List NewsItem → List NewsItem → List (List Char) → List (List Char) →
      List NewsItem
  | [], merged, _, _ => merged
  | item :: rest, merged, urls, dois =>
    if item.url.isEmpty then mergeLoop rest merged urls dois
    else if urls.contains (rstripSlash item.url) then mergeLoop rest merged urls dois
    else if doi_overlap (extract_dois item.url) dois then mergeLoop rest merged urls dois
    else
      mergeLoop rest (merged ++ [item]) (urls ++ [rstripSlash item.url])
        (dois ++ extract_dois item.url)

/-- The merged list right before the final sort: the manual items in input
order followed by the accepted auto items in input order. -/
def merge_presort (manual auto : List NewsItem) : List NewsItem :=
  mergeLoop auto manual (manualUrls manual) (manualDois manual)

/-- Python string `<=`: lexicographic comparison by code point. -/
def lexLe : List Char → List Char → Bool
  | [], _ => true
  | _ :: _, [] => false
  | a :: as, b :: bs =>
    if a.toNat < b.toNat then true
    else if b.toNat < a.toNat then false
    else lexLe as bs

/-- Comparison used by the final sort (`key=date`, `reverse=True`):
`a` may come before `b` when `b.date <= a.date`. -/
def dateGe (a b : NewsItem) : Prop := lexLe b.date a.date = true

instance : DecidableRel dateGe := fun a b => by
  unfold dateGe; infer_instance

/-- `merge_news` from the script: dedup loop, then stable sort by `date`
descending. -/
def merge_news (manual auto : List NewsItem) : List NewsItem :=
  List.insertionSort dateGe (merge_presort manual auto)

/-! ### `paper_to_news_item` -/

/-- A raw Semantic Scholar paper record.  `doi` and `arxiv` are the
`externalIds` entries; a `None` or absent `externalIds` map simply yields
`none` for both (`paper.get("externalIds", {}) or {}`). -/
structure RawPaper where
  title : Option (List Char)
  publicationDate : Option (List Char)
  year : Option Int
  doi : Option (List Char)
  arxiv : Option (List Char)
  url : Option (List Char)
  venue : Option (List Char)
  paperId : Option (List Char)
deriving DecidableEq

/-- Python `str.strip()`: drop ASCII whitespace at both ends. -/
def pyStrip (l : List Char) : List Char :=
  ((l.dropWhile isPySpace).reverse.dropWhile isPySpace).reverse

/-- Python truthiness of an optional string: present and non-empty. -/
def truthyStr : Option (List Char) → Bool
  | none => false
  | some s => !s.isEmpty

/-- Python truthiness of an optional int: present and non-zero. -/
def truthyInt : Option Int → Bool
  | none => false
  | some n => n != 0

/-- Decimal rendering of an integer, as Python's `f"{year}"`. -/
def intChars (n : Int) : List Char := (toString n).toList

/-- `paper_to_news_item` from the script. -/
def paper_to_news_item (p : RawPaper) : Option NewsItem :=
  let title := pyStrip (p.title.getD [])
  if title.isEmpty then none
  else
    let dateOpt : Option (List Char) :=
      if truthyStr p.publicationDate then p.publicationDate
      else if truthyInt p.year then p.year.map (fun y => intChars y ++ "-01-01".toList)
      else none
    match dateOpt with
    | none => none
    | some date_str =>
      let url : List Char :=
        if truthyStr p.doi then "https://doi.org/".toList ++ p.doi.getD []
        else if truthyStr p.arxiv then "https://arxiv.org/abs/".toList ++ p.arxiv.getD []
        else p.url.getD []
      let text : List Char :=
        if truthyStr p.venue then
          "Our paper \"".toList ++ title ++ "\" published in ".toList ++ p.venue.getD []
        else
          "Our paper \"".toList ++ title ++ "\" is available".toList
      some { date := date_str, text := text, url := url,
             source := "semantic_scholar".toList, paper_id := p.paperId,
             link_text := none }

/-! ### `render_news_html` -/

/-- Python `"\n".join`. -/
def joinLines : List (List Char) → List Char
  | [] => []
  | [l] => l
  | l :: ls => l ++ '\n' :: joinLines ls

/-- One `<li>` block of the rendered fragment. -/
def renderItem (item : NewsItem) : List Char :=
  let ltext := item.link_text.getD "here".toList
  if !item.url.isEmpty then
    "                        <li>\n                            <strong>".toList
      ++ item.date ++ "</strong> - ".toList ++ item.text
      ++ " <a href=\"".toList ++ item.url ++ "\"> ".toList ++ ltext
      ++ " </a>.\n                        </li>".toList
  else
    "                        <li>\n                            <strong>".toList
      ++ item.date ++ "</strong> - ".toList ++ item.text
      ++ "\n                        </li>".toList

/-- The four lines appended before the item loop. -/
def headerLines : List (List Char) :=
  ["                <!-- NEWS_START -->".toList,
   "                <div class=\"news\">".toList,
   "                    <h2>News</h2>".toList,
   "                    <ul>".toList]

/-- The three lines appended after the item loop. -/
def footerLines : List (List Char) :=
  ["                    </ul>".toList,
   "                </div>".toList,
   "                <!-- NEWS_END -->".toList]

/-- `render_news_html` from the script. -/
def render_news_html (items : List NewsItem) : List Char :=
  joinLines (headerLines ++ items.map renderItem ++ footerLines)

/-- Everything before the first newline of `l` (the whole of `l` when it has
no newline). -/
def firstLine (l : List Char) : List Char :=
  l.takeWhile (fun c => c != '\n')

/-- Everything after the last newline of `l`. -/
def lastLine (l : List Char) : List Char :=
  (l.reverse.takeWhile (fun c => c != '\n')).reverse

/-! ### `update_index_html` -/

/-- `MARKER_START` from the script. -/
def MARKER_START : List Char := "<!-- NEWS_START -->".toList

/-- `MARKER_END` from the script. -/
def MARKER_END : List Char := "<!-- NEWS_END -->".toList

/-- Index of the first occurrence of the literal `pat` in `l`. -/
def findLit (pat : List Char) : List Char → Option Nat
  | [] => if pat.isEmpty then some 0 else none
  | c :: rest =>
    if pat.isPrefixOf (c :: rest) then some 0
    else (findLit pat rest).map (· + 1)

/-- Does `l` contain the literal `pat` as a contiguous substring? -/
def containsLit (pat l : List Char) : Bool :=
  (findLit pat l).isSome

/-- Does `re.escape(MARKER_START) + ".*?" + re.escape(MARKER_END)` (with
DOTALL) match somewhere in `l`?  A match exists exactly when some end
marker occurrence begins after the end of the first start marker
occurrence (any such case yields a leftmost lazy match). -/
def hasMarkerSpan (l : List Char) : Bool :=
  match findLit MARKER_START l with
  | none => false
  | some i => (findLit MARKER_END (l.drop (i + MARKER_START.length))).isSome

/-- Fueled replacement of every non-overlapping lazy `START ... END` span
by `repl`, as `pattern.sub(repl, l)` (replacement text taken literally:
the fragments the script passes contain no backslash escapes).  When a
start marker has no end marker after it, no further match exists at all
and the remainder is emitted unchanged. -/
def replaceSpansAux : Nat → List Char → List Char → List Char
  | 0, _, l => l
  | fuel + 1, repl, l =>
    match findLit MARKER_START l with
    | none => l
    | some i =>
      let afterStart := l.drop (i + MARKER_START.length)
      match findLit MARKER_END afterStart with
      | none => l
      | some j =>
        let rest := afterStart.drop (j + MARKER_END.length)
        l.take i ++ repl ++ replaceSpansAux fuel repl rest

/-- `pattern.sub(repl, l)`; `l.length + 1` fuel always suffices (every
replacement strictly shortens the remainder being scanned). -/
def replaceSpans (repl l : List Char) : List Char :=
  replaceSpansAux (l.length + 1) repl l

/-- `update_index_html` from the script, as a pure function of the new
fragment and the current `index.html` content.  Returns the `bool` result
of the Python function together with the content of the file after the
call; a second component equal to `content` means nothing was written. -/
def update_index_html (news_html content : List Char) : Bool × List Char :=
  if !hasMarkerSpan content then (false, content)
  else
    let new_content := replaceSpans news_html content
    if new_content = content then (false, content)
    else (true, new_content)

/-! ## Verification

General lemmas about the embedded primitives, followed by one theorem per
claim of the specification. -/

theorem toNat_ofNat_valid (n : Nat) (h : n < 55296) : (Char.ofNat n).toNat = n := by
  have hv : Nat.isValidChar n := Or.inl h
  simp only [Char.ofNat, hv, dif_pos, Char.ofNatAux, Char.toNat]
  rfl

theorem lowerChar_idem (c : Char) : lowerChar (lowerChar c) = lowerChar c := by
  by_cases h : 65 ≤ c.toNat ∧ c.toNat ≤ 90
  · have h1 : lowerChar c = Char.ofNat (c.toNat + 32) := by
      unfold lowerChar; rw [if_pos h]
    have h2 : (Char.ofNat (c.toNat + 32)).toNat = c.toNat + 32 :=
      toNat_ofNat_valid _ (by omega)
    rw [h1]
    unfold lowerChar
    have hneg : ¬ (65 ≤ (Char.ofNat (c.toNat + 32)).toNat ∧
        (Char.ofNat (c.toNat + 32)).toNat ≤ 90) := by rw [h2]; omega
    rw [if_neg hneg]
  · have h1 : lowerChar c = c := by unfold lowerChar; rw [if_neg h]
    rw [h1, h1]

theorem map_id_of_fixed {f : Char → Char} {l : List Char}
    (h : ∀ c ∈ l, f c = c) : l.map f = l := by
  induction l with
  | nil => rfl
  | cons c l ih =>
    simp only [List.map_cons, h c (List.mem_cons_self c l)]
    rw [ih (fun d hd => h d (List.mem_cons_of_mem c hd))]

theorem mem_rstripSlash {c : Char} {l : List Char}
    (h : c ∈ rstripSlash l) : c ∈ l := by
  unfold rstripSlash at h
  rw [List.mem_reverse] at h
  have := (List.dropWhile_sublist (l := l.reverse) (p := fun c => c == '/')).subset h
  rwa [List.mem_reverse] at this

theorem mem_stripVRev {c : Char} {r : List Char}
    (h : c ∈ stripVRev r) : c ∈ r := by
  unfold stripVRev at h
  split at h
  · exact h
  · split at h
    next c2 r2 heq =>
      split at h
      · have : c ∈ r.drop (r.takeWhile Char.isDigit).length := by
          rw [heq]; exact List.mem_cons_of_mem _ h
        exact (List.drop_sublist _ _).subset this
      · exact h
    next => exact h

theorem mem_stripV {c : Char} {l : List Char}
    (h : c ∈ stripV l) : c ∈ l := by
  unfold stripV at h
  split at h
  next heq => simp at h
  next c2 r heq =>
    have hrev : ∀ d, d ∈ (c2 :: r) → d ∈ l := by
      intro d hd
      rw [← heq] at hd
      exact List.mem_reverse.mp hd
    split at h
    next hc2 =>
      rcases List.mem_append.mp h with h | h
      · rw [List.mem_reverse] at h
        exact hrev c (List.mem_cons_of_mem _ (mem_stripVRev h))
      · simp at h
        subst h
        exact hrev '\n' (hc2 ▸ List.mem_cons_self c2 r)
    next =>
      rw [List.mem_reverse] at h
      exact hrev c (mem_stripVRev h)

theorem rstripSlash_eq_self {l : List Char}
    (h : l.getLast? ≠ some '/') : rstripSlash l = l := by
  unfold rstripSlash
  cases hr : l.reverse with
  | nil =>
    have : l = [] := by
      have := congrArg List.reverse hr
      simpa using this
    simp [this]
  | cons c r =>
    have hc : c ≠ '/' := by
      intro he
      apply h
      rw [← List.head?_reverse, hr, he]
      rfl
    have : (c == '/') = false := by simp [hc]
    rw [List.dropWhile_cons, this]
    simp only [Bool.false_eq_true, if_false]
    rw [← hr, List.reverse_reverse]

theorem stripVRev_eq_self {r : List Char}
    (h : hasVSuffixRev r = false) : stripVRev r = r := by
  unfold stripVRev
  unfold hasVSuffixRev at h
  split at h
  next hds => rw [if_pos hds]
  next hds =>
    rw [if_neg hds]
    split at h
    next c2 r2 heq =>
      have hc2 : ¬ c2 = 'v' := by simpa using h
      rw [if_neg hc2]
    next heq => rfl

theorem stripV_eq_self {l : List Char}
    (h : hasVSuffix l = false) : stripV l = l := by
  unfold stripV
  unfold hasVSuffix at h
  split at h
  next heq => exact (List.reverse_eq_nil_iff.mp heq).symm
  next c r heq =>
    have hl : l = r.reverse ++ [c] := by
      have h2 := congrArg List.reverse heq
      simpa using h2
    by_cases hc : c = '\n'
    · rw [if_pos hc] at h ⊢
      rw [stripVRev_eq_self h, hl, hc]
    · rw [if_neg hc] at h ⊢
      rw [stripVRev_eq_self h, List.reverse_cons, hl]

/-- C2 counterexample: `normalize_doi` is not idempotent on `"a/v1"`;
stripping the version suffix exposes a trailing slash that only a second
pass removes. -/
theorem normalize_doi_idem_cex :
    ¬ normalize_doi (normalize_doi "a/v1".toList) = normalize_doi "a/v1".toList := by
  decide

/-- C2 (amended): `normalize_doi` is idempotent on every input whose
normalization does not itself end in a slash or in a `v<digits>` version
suffix; equivalently, a second pass changes nothing unless removing the
version suffix exposed a new trailing slash or version suffix. -/
theorem normalize_doi_idem_conditional (x : List Char)
    (h1 : (normalize_doi x).getLast? ≠ some '/')
    (h2 : hasVSuffix (normalize_doi x) = false) :
    normalize_doi (normalize_doi x) = normalize_doi x := by
  have hmap : (normalize_doi x).map lowerChar = normalize_doi x := by
    apply map_id_of_fixed
    intro c hc
    have hc2 : c ∈ (x.map lowerChar) :=
      mem_rstripSlash (mem_stripV hc)
    rcases List.mem_map.mp hc2 with ⟨a, _, rfl⟩
    exact lowerChar_idem a
  show stripV (rstripSlash ((normalize_doi x).map lowerChar)) = normalize_doi x
  rw [hmap, rstripSlash_eq_self h1, stripV_eq_self h2]

/-- C2 witness: a concrete DOI on which the conditional idempotence
theorem applies. -/
theorem normalize_doi_idem_witness :
    (normalize_doi "10.1038/SRep-1".toList).getLast? ≠ some '/' ∧
      hasVSuffix (normalize_doi "10.1038/SRep-1".toList) = false ∧
      normalize_doi (normalize_doi "10.1038/SRep-1".toList) =
        normalize_doi "10.1038/SRep-1".toList :=
  ⟨by decide, by decide, normalize_doi_idem_conditional _ (by decide) (by decide)⟩

theorem lexLe_refl (x : List Char) : lexLe x x = true := by
  induction x with
  | nil => rfl
  | cons a as ih => simp [lexLe, ih]

theorem lexLe_total (x y : List Char) : lexLe x y = true ∨ lexLe y x = true := by
  induction x generalizing y with
  | nil => left; rfl
  | cons a as ih =>
    cases y with
    | nil => right; rfl
    | cons b bs =>
      by_cases hab : a.toNat < b.toNat
      · left; simp [lexLe, hab]
      · by_cases hba : b.toNat < a.toNat
        · right; simp [lexLe, hba]
        · rcases ih bs with h | h
          · left; simp [lexLe, hab, hba, h]
          · right; simp [lexLe, hab, hba, h]

theorem lexLe_trans {x y z : List Char}
    (h1 : lexLe x y = true) (h2 : lexLe y z = true) : lexLe x z = true := by
  induction x generalizing y z with
  | nil => rfl
  | cons a as ih =>
    cases y with
    | nil => simp [lexLe] at h1
    | cons b bs =>
      cases z with
      | nil => simp [lexLe] at h2
      | cons c cs =>
        simp only [lexLe] at h1 h2 ⊢
        by_cases hab : a.toNat < b.toNat
        · by_cases hbc : b.toNat < c.toNat
          · have hac : a.toNat < c.toNat := by omega
            simp [hac]
          · by_cases hcb : c.toNat < b.toNat
            · simp [hbc, hcb] at h2
            · have hac : a.toNat < c.toNat := by omega
              simp [hac]
        · by_cases hba : b.toNat < a.toNat
          · simp [hab, hba] at h1
          · simp only [hab, hba, if_false] at h1
            by_cases hbc : b.toNat < c.toNat
            · have hac : a.toNat < c.toNat := by omega
              simp [hac]
            · by_cases hcb : c.toNat < b.toNat
              · simp [hbc, hcb] at h2
              · simp only [hbc, hcb, if_false] at h2
                have hac : ¬ a.toNat < c.toNat := by omega
                have hca : ¬ c.toNat < a.toNat := by omega
                simp only [hac, hca, if_false]
                exact ih h1 h2

instance : IsTotal NewsItem dateGe :=
  ⟨fun a b => lexLe_total b.date a.date⟩

instance : IsTrans NewsItem dateGe :=
  ⟨fun _ _ _ hab hbc => lexLe_trans hbc hab⟩

theorem mergeLoop_count (auto : List NewsItem) :
    ∀ (merged : List NewsItem) (urls dois : List (List Char)) (x : NewsItem),
      merged.count x ≤ (mergeLoop auto merged urls dois).count x := by
  induction auto with
  | nil => intro merged urls dois x; simp [mergeLoop]
  | cons item rest ih =>
    intro merged urls dois x
    simp only [mergeLoop]
    split
    · exact ih merged urls dois x
    · split
      · exact ih merged urls dois x
      · split
        · exact ih merged urls dois x
        · calc merged.count x ≤ (merged ++ [item]).count x := by
                simp [List.count_append]
            _ ≤ _ := ih _ _ _ x

/-- C3: the merge is manual-preserving: every manual item occurs in the
merged output with at least its multiplicity in the manual list (so
manual entries are never dropped, even exact duplicates of one another or
of an auto item). -/
theorem merge_news_manual_preserving
    (manual auto : List NewsItem) (x : NewsItem) :
    manual.count x ≤ (merge_news manual auto).count x := by
  have hperm : (merge_news manual auto).count x
      = (merge_presort manual auto).count x :=
    (List.perm_insertionSort dateGe (merge_presort manual auto)).count_eq x
  rw [hperm]
  exact mergeLoop_count auto manual (manualUrls manual) (manualDois manual) x

/-- The subsequence of auto items the merge loop accepts, given the
initial tracking sets. -/
def acceptedAutos : List NewsItem → List (List Char) → List (List Char) → List NewsItem
  | [], _, _ => []
  | item :: rest, urls, dois =>
    if item.url.isEmpty then acceptedAutos rest urls dois
    else if urls.contains (rstripSlash item.url) then acceptedAutos rest urls dois
    else if doi_overlap (extract_dois item.url) dois then acceptedAutos rest urls dois
    else
      item :: acceptedAutos rest (urls ++ [rstripSlash item.url])
        (dois ++ extract_dois item.url)

theorem mergeLoop_eq_append (auto : List NewsItem) :
    ∀ (merged : List NewsItem) (urls dois : List (List Char)),
      mergeLoop auto merged urls dois = merged ++ acceptedAutos auto urls dois := by
  induction auto with
  | nil => intro merged urls dois; simp [mergeLoop, acceptedAutos]
  | cons item rest ih =>
    intro merged urls dois
    simp only [mergeLoop, acceptedAutos]
    by_cases h1 : item.url.isEmpty = true
    · simp only [h1, if_true]
      exact ih merged urls dois
    · simp only [h1, Bool.false_eq_true, if_false]
      by_cases h2 : urls.contains (rstripSlash item.url) = true
      · simp only [h2, if_true]
        exact ih merged urls dois
      · simp only [h2, Bool.false_eq_true, if_false]
        by_cases h3 : doi_overlap (extract_dois item.url) dois = true
        · simp only [h3, if_true]
          exact ih merged urls dois
        · simp only [h3, Bool.false_eq_true, if_false]
          rw [ih, List.append_assoc]
          rfl

theorem filter_orderedInsert_pos (d : List Char) (a : NewsItem)
    (l : List NewsItem) (ha : a.date = d) :
    (List.orderedInsert dateGe a l).filter (fun x => x.date == d)
      = a :: l.filter (fun x => x.date == d) := by
  induction l with
  | nil => simp [List.orderedInsert, List.filter, ha]
  | cons b l ih =>
    simp only [List.orderedInsert]
    split
    · simp [List.filter_cons, ha]
    · next hr =>
      have hbd : ¬ b.date = d := by
        intro he
        apply hr
        show lexLe b.date a.date = true
        rw [he, ha]
        exact lexLe_refl d
      simp only [List.filter_cons]
      have hb : (b.date == d) = false := by simpa using hbd
      rw [hb]
      simp only [Bool.false_eq_true, if_false]
      rw [ih]

theorem filter_orderedInsert_neg (d : List Char) (a : NewsItem)
    (l : List NewsItem) (ha : ¬ a.date = d) :
    (List.orderedInsert dateGe a l).filter (fun x => x.date == d)
      = l.filter (fun x => x.date == d) := by
  have haf : (a.date == d) = false := by simpa using ha
  induction l with
  | nil => simp [List.orderedInsert, List.filter, haf]
  | cons b l ih =>
    simp only [List.orderedInsert]
    split
    · simp only [List.filter_cons, haf]
      simp
    · simp only [List.filter_cons]
      rw [ih]

theorem filter_insertionSort (d : List Char) (l : List NewsItem) :
    (List.insertionSort dateGe l).filter (fun x => x.date == d)
      = l.filter (fun x => x.date == d) := by
  induction l with
  | nil => rfl
  | cons a l ih =>
    simp only [List.insertionSort]
    by_cases ha : a.date = d
    · rw [filter_orderedInsert_pos d a _ ha, ih, List.filter_cons]
      have hb : (a.date == d) = true := by simpa using ha
      rw [hb]
      simp
    · rw [filter_orderedInsert_neg d a _ ha, ih, List.filter_cons]
      have hb : (a.date == d) = false := by simpa using ha
      rw [hb]
      simp

/-- C6: the merged output is sorted by `date` descending under plain
string (code point) comparison, and the sort is stable: for every date
value, the output items carrying that date are exactly the items carrying
it in the pre-sort sequence, in the same order - where the pre-sort
sequence is the manual items in input order followed by the accepted auto
items in input order. -/
theorem merge_news_sorted_stable (manual auto : List NewsItem) :
    (merge_news manual auto).Sorted dateGe ∧
      (∀ d, (merge_news manual auto).filter (fun x => x.date == d)
        = (merge_presort manual auto).filter (fun x => x.date == d)) ∧
      merge_presort manual auto
        = manual ++ acceptedAutos auto (manualUrls manual) (manualDois manual) :=
  ⟨List.sorted_insertionSort dateGe (merge_presort manual auto),
   fun d => filter_insertionSort d (merge_presort manual auto),
   mergeLoop_eq_append auto manual (manualUrls manual) (manualDois manual)⟩

/-- The dedup invariant between two items: distinct trimmed URLs and
disjoint extracted DOI sets. -/
def Distinctive (a b : NewsItem) : Prop :=
  rstripSlash a.url ≠ rstripSlash b.url ∧
    ∀ d ∈ extract_dois a.url, d ∉ extract_dois b.url

instance : DecidableRel Distinctive := fun a b => by
  unfold Distinctive
  infer_instance

theorem distinctive_symm {a b : NewsItem} (h : Distinctive a b) :
    Distinctive b a :=
  ⟨fun he => h.1 he.symm, fun d hdb hda => h.2 d hda hdb⟩

theorem not_mem_of_not_contains {x : List Char} {l : List (List Char)}
    (h : ¬ l.contains x = true) : x ∉ l :=
  fun hm => h (List.elem_iff.mpr hm)

theorem overlap_disjoint {A B : List (List Char)}
    (h : ¬ doi_overlap A B = true) : ∀ d ∈ A, d ∉ B := by
  intro d hd hdb
  apply h
  unfold doi_overlap
  rw [List.any_eq_true]
  exact ⟨d, hd, List.elem_iff.mpr hdb⟩

/-- The loop invariant of `merge_news`: every merged item has a nonempty
url whose trimmed form is tracked in `urls` and whose DOI set is tracked
in `dois`. -/
def Tracked (merged : List NewsItem) (urls dois : List (List Char)) : Prop :=
  ∀ x ∈ merged, x.url ≠ [] ∧ rstripSlash x.url ∈ urls ∧
    ∀ d ∈ extract_dois x.url, d ∈ dois

theorem mergeLoop_pairwise (auto : List NewsItem) :
    ∀ (merged : List NewsItem) (urls dois : List (List Char)),
      Tracked merged urls dois → merged.Pairwise Distinctive →
      (mergeLoop auto merged urls dois).Pairwise Distinctive := by
  induction auto with
  | nil => intro merged urls dois _ hp; exact hp
  | cons item rest ih =>
    intro merged urls dois ht hp
    simp only [mergeLoop]
    split
    · exact ih merged urls dois ht hp
    next hne =>
      split
      · exact ih merged urls dois ht hp
      next hcont =>
        split
        · exact ih merged urls dois ht hp
        next hov =>
          apply ih
          · intro x hx
            rcases List.mem_append.mp hx with hx | hx
            · obtain ⟨h1, h2, h3⟩ := ht x hx
              exact ⟨h1, List.mem_append_left _ h2,
                fun d hd => List.mem_append_left _ (h3 d hd)⟩
            · have hxi : x = item := by simpa using hx
              subst hxi
              refine ⟨by simpa using hne, ?_, ?_⟩
              · exact List.mem_append_right _ (by simp)
              · intro d hd
                exact List.mem_append_right _ hd
          · rw [List.pairwise_append]
            refine ⟨hp, List.pairwise_singleton _ _, ?_⟩
            intro x hx y hy
            have hyi : y = item := by simpa using hy
            subst hyi
            obtain ⟨h1, h2, h3⟩ := ht x hx
            constructor
            · intro he
              rw [he] at h2
              exact not_mem_of_not_contains hcont h2
            · intro d hdx hditem
              exact overlap_disjoint hov d hditem (h3 d hdx)

/-- C1 counterexample: a duplicated manual entry is never deduplicated, so
the merged output can contain two items with the same trimmed URL (and
the same DOI set). -/
theorem merge_news_duplicates_cex :
    ¬ (merge_news
        [{ date := "2024-01-01".toList, text := [], url := "https://x.org/a".toList,
           source := [], paper_id := none, link_text := none },
         { date := "2024-01-01".toList, text := [], url := "https://x.org/a".toList,
           source := [], paper_id := none, link_text := none }]
        []).Pairwise Distinctive := by
  decide

/-- C1 (amended): provided every manual item has a nonempty URL and the
manual list itself contains no two items with equal trimmed URLs or
intersecting DOI sets, the merged output contains no two items with equal
trimmed URLs and no two items with intersecting DOI sets (for any auto
list). -/
theorem merge_news_no_duplicates (manual auto : List NewsItem)
    (hu : ∀ m ∈ manual, m.url ≠ [])
    (hp : manual.Pairwise Distinctive) :
    (merge_news manual auto).Pairwise Distinctive := by
  have hpre : (merge_presort manual auto).Pairwise Distinctive := by
    apply mergeLoop_pairwise
    · intro x hx
      refine ⟨hu x hx, ?_, ?_⟩
      · exact List.mem_map.mpr
          ⟨x, List.mem_filter.mpr ⟨hx, by simpa using hu x hx⟩, rfl⟩
      · intro d hd
        exact List.mem_flatMap.mpr
          ⟨x, List.mem_filter.mpr ⟨hx, by simpa using hu x hx⟩, hd⟩
    · exact hp
  exact ((List.perm_insertionSort dateGe _).pairwise_iff
    (fun h => distinctive_symm h)).mpr hpre

/-- C1 witness: the amended invariant on a concrete run with two distinct
manual items and one duplicate auto item. -/
theorem merge_news_no_duplicates_witness :
    (merge_news
      [{ date := "2024-01-01".toList, text := [], url := "https://x.org/a".toList,
         source := [], paper_id := none, link_text := none },
       { date := "2023-05-01".toList, text := [], url := "https://doi.org/10.1038/s41586-1".toList,
         source := [], paper_id := none, link_text := none }]
      [{ date := "2023-05-02".toList, text := [], url := "https://www.nature.com/articles/s41586-1".toList,
         source := [], paper_id := none, link_text := none }]).Pairwise Distinctive :=
  merge_news_no_duplicates _ _ (by decide) (by decide)

/-- C4: the merge deduplicates by DOI equivalence: one manual item with
the `doi.org` URL of a paper and one auto item with the `nature.com` URL
embedding the same DOI (or vice versa) yield a merged output containing
exactly the manual item, whatever the other fields are. -/
theorem merge_news_doi_dedup
    (d1 t1 s1 d2 t2 s2 : List Char) (p1 l1 p2 l2 : Option (List Char)) :
    merge_news
        [⟨d1, t1, "https://doi.org/10.1038/s41586-1".toList, s1, p1, l1⟩]
        [⟨d2, t2, "https://www.nature.com/articles/s41586-1".toList, s2, p2, l2⟩]
      = [⟨d1, t1, "https://doi.org/10.1038/s41586-1".toList, s1, p1, l1⟩] ∧
    merge_news
        [⟨d1, t1, "https://www.nature.com/articles/s41586-1".toList, s1, p1, l1⟩]
        [⟨d2, t2, "https://doi.org/10.1038/s41586-1".toList, s2, p2, l2⟩]
      = [⟨d1, t1, "https://www.nature.com/articles/s41586-1".toList, s1, p1, l1⟩] :=
  ⟨rfl, rfl⟩

theorem findDoiAux_eq_nil (fuel : Nat) :
    ∀ url : List Char, containsDoiMatch url = false → findDoiAux fuel url = [] := by
  induction fuel with
  | zero => intro url _; rfl
  | succ n ih =>
    intro url h
    cases url with
    | nil => rfl
    | cons c rest =>
      simp only [containsDoiMatch, Bool.or_eq_false_iff] at h
      obtain ⟨h1, h2⟩ := h
      simp only [findDoiAux]
      cases hm : matchDoiHere (c :: rest) with
      | none => exact ih rest h2
      | some v => rw [hm] at h1; simp at h1

/-- C5 counterexample: a URL with no match of the DOI pattern
`10.<4-9 digits>/<tail>` for which extraction is nevertheless non-empty,
because the nature publisher rule synthesizes a DOI. -/
theorem extract_dois_no_pattern_cex :
    containsDoiMatch "nature.com/articles/s1".toList = false ∧
      extract_dois "nature.com/articles/s1".toList ≠ [] := by
  decide

/-- C5 (amended): for every URL containing no match of the DOI pattern
and matching neither the nature-article nor the arxiv-abstract publisher
pattern, extraction returns the empty set; likewise for the empty string.
(The extraction function is total, so it cannot raise.) -/
theorem extract_dois_empty_of_no_pattern (url : List Char)
    (h1 : containsDoiMatch url = false)
    (h2 : natureSearch url = none)
    (h3 : arxivSearch url = none) :
    extract_dois url = [] ∧ extract_dois [] = [] := by
  refine ⟨?_, rfl⟩
  unfold extract_dois
  split
  · rfl
  · rw [findDoiMatches, findDoiAux_eq_nil _ url h1, h2, h3]
    rfl

/-- C5 witness: a DOI-free URL on which the amended theorem applies. -/
theorem extract_dois_empty_witness :
    extract_dois "https://example.org/page".toList = [] ∧ extract_dois [] = [] :=
  extract_dois_empty_of_no_pattern _ (by decide) (by decide) (by decide)

/-- C7: the mapper returns nothing exactly when the record lacks a usable
title (empty after stripping) or lacks both a truthy publication date and
a truthy year; otherwise the item's date is the publication date string
when that is present and non-empty, else the synthesized
`<year>-01-01`. -/
theorem paper_to_news_item_spec (p : RawPaper) :
    (paper_to_news_item p = none ↔
      pyStrip (p.title.getD []) = [] ∨
        (truthyStr p.publicationDate = false ∧ truthyInt p.year = false)) ∧
    (truthyStr p.publicationDate = true → pyStrip (p.title.getD []) ≠ [] →
      (paper_to_news_item p).map NewsItem.date = p.publicationDate) ∧
    (truthyStr p.publicationDate = false → truthyInt p.year = true →
      pyStrip (p.title.getD []) ≠ [] →
      (paper_to_news_item p).map NewsItem.date
        = p.year.map (fun y => intChars y ++ "-01-01".toList)) := by
  by_cases ht : pyStrip (p.title.getD []) = []
  · have ht2 : (pyStrip (p.title.getD [])).isEmpty = true := by simp [ht]
    refine ⟨?_, ?_, ?_⟩
    · simp [paper_to_news_item, ht2, ht]
    · intro _ hne; exact absurd ht hne
    · intro _ _ hne; exact absurd ht hne
  · have ht2 : (pyStrip (p.title.getD [])).isEmpty = false := by
      simpa using ht
    by_cases hpd : truthyStr p.publicationDate = true
    · obtain ⟨pd, hp⟩ : ∃ pd, p.publicationDate = some pd := by
        cases hpp : p.publicationDate with
        | none => rw [hpp] at hpd; simp [truthyStr] at hpd
        | some pd => exact ⟨pd, rfl⟩
      have hpd3 : truthyStr (some pd) = true := hp ▸ hpd
      refine ⟨?_, ?_, ?_⟩
      · simp [paper_to_news_item, ht2, hpd, hp, hpd3, ht]
      · intro _ _
        simp [paper_to_news_item, ht2, hpd, hp, hpd3]
      · intro hpd2 _ _
        rw [hpd] at hpd2; cases hpd2
    · have hpdf : truthyStr p.publicationDate = false := by simpa using hpd
      by_cases hy : truthyInt p.year = true
      · obtain ⟨y, hyy⟩ : ∃ y, p.year = some y := by
          cases hyp : p.year with
          | none => rw [hyp] at hy; simp [truthyInt] at hy
          | some y => exact ⟨y, rfl⟩
        have hy3 : truthyInt (some y) = true := hyy ▸ hy
        refine ⟨?_, ?_, ?_⟩
        · simp [paper_to_news_item, ht2, hpdf, hy, hyy, hy3, ht]
        · intro hc; rw [hpdf] at hc; cases hc
        · intro _ _ _
          simp [paper_to_news_item, ht2, hpdf, hy, hyy, hy3]
      · have hyf : truthyInt p.year = false := by simpa using hy
        refine ⟨?_, ?_, ?_⟩
        · simp [paper_to_news_item, ht2, hpdf, hyf]
        · intro hc; rw [hpdf] at hc; cases hc
        · intro _ hc; rw [hyf] at hc; cases hc

/-- C7 witness: the mapper on a concrete record with a title and only a
year synthesizes the `<year>-01-01` date. -/
theorem paper_to_news_item_spec_witness :
    (paper_to_news_item
        { title := some "T".toList, publicationDate := none, year := some 2021,
          doi := none, arxiv := none, url := none, venue := none,
          paperId := none }).map NewsItem.date
      = (some (2021 : Int)).map (fun y => intChars y ++ "-01-01".toList) :=
  (paper_to_news_item_spec _).2.2 (by decide) (by decide) (by decide)

theorem replaceSpansAux_of_no_span {post : List Char}
    (h : hasMarkerSpan post = false) (fuel : Nat) (repl : List Char) :
    replaceSpansAux fuel repl post = post := by
  cases fuel with
  | zero => rfl
  | succ n =>
    unfold hasMarkerSpan at h
    simp only [replaceSpansAux]
    split at h
    · rfl
    next i heq =>
      cases he : findLit MARKER_END (post.drop (i + MARKER_START.length)) with
      | none => rfl
      | some j => rw [he] at h; simp at h

/-- C8 counterexample: on a document holding two marker spans, the patcher
replaces both, not only the first: the second span does not survive in
the output. -/
theorem update_index_html_first_span_cex :
    (update_index_html "F".toList
        ("A".toList ++ MARKER_START ++ "x".toList ++ MARKER_END ++ "B".toList
          ++ MARKER_START ++ "y".toList ++ MARKER_END ++ "C".toList)).2
      = "AFBFC".toList ∧
    "AFBFC".toList
      ≠ "A".toList ++ "F".toList ++ "B".toList
          ++ MARKER_START ++ "y".toList ++ MARKER_END ++ "C".toList := by
  constructor
  · decide
  · decide

/-- C8 (amended): the patcher replaces every non-overlapping lazy span
between the markers, not only the first.  In particular, when the
document contains exactly one such span - the first start-marker
occurrence begins at `pre.length`, the first end-marker occurrence after
it ends `mid`, and no further span follows - that span is replaced by the
fragment and the rest of the document is unchanged, with the changed flag
reporting whether the fragment differed from the replaced span. -/
theorem update_index_html_single_span (pre mid post frag : List Char)
    (hs : findLit MARKER_START
        (pre ++ MARKER_START ++ mid ++ MARKER_END ++ post) = some pre.length)
    (he : findLit MARKER_END (mid ++ MARKER_END ++ post) = some mid.length)
    (hp : hasMarkerSpan post = false) :
    update_index_html frag (pre ++ MARKER_START ++ mid ++ MARKER_END ++ post)
      = (if frag = MARKER_START ++ mid ++ MARKER_END then false else true,
         pre ++ frag ++ post) := by
  have hdrop : (pre ++ MARKER_START ++ mid ++ MARKER_END ++ post).drop
      (pre.length + MARKER_START.length) = mid ++ MARKER_END ++ post := by
    have h1 : pre ++ MARKER_START ++ mid ++ MARKER_END ++ post
        = (pre ++ MARKER_START) ++ (mid ++ MARKER_END ++ post) := by
      simp [List.append_assoc]
    rw [h1]
    exact List.drop_left' (by simp)
  have hdrop2 : (mid ++ MARKER_END ++ post).drop
      (mid.length + MARKER_END.length) = post := by
    have h1 : mid ++ MARKER_END ++ post = (mid ++ MARKER_END) ++ post := by
      simp [List.append_assoc]
    rw [h1]
    exact List.drop_left' (by simp)
  have htake : (pre ++ MARKER_START ++ mid ++ MARKER_END ++ post).take
      pre.length = pre := by
    have h1 : pre ++ MARKER_START ++ mid ++ MARKER_END ++ post
        = pre ++ (MARKER_START ++ mid ++ MARKER_END ++ post) := by
      simp [List.append_assoc]
    rw [h1]
    exact List.take_left' rfl
  have hspan : hasMarkerSpan
      (pre ++ MARKER_START ++ mid ++ MARKER_END ++ post) = true := by
    unfold hasMarkerSpan
    rw [hs]
    show (findLit MARKER_END ((pre ++ MARKER_START ++ mid ++ MARKER_END ++ post).drop
      (pre.length + MARKER_START.length))).isSome = true
    rw [hdrop, he]
    rfl
  have hrepl : replaceSpans frag (pre ++ MARKER_START ++ mid ++ MARKER_END ++ post)
      = pre ++ frag ++ post := by
    unfold replaceSpans
    simp only [replaceSpansAux, hs, hdrop, he, hdrop2, htake]
    rw [replaceSpansAux_of_no_span hp]
  unfold update_index_html
  rw [hspan]
  simp only [Bool.not_true, Bool.false_eq_true, if_false]
  rw [hrepl]
  by_cases hf : frag = MARKER_START ++ mid ++ MARKER_END
  · have hcontent : pre ++ frag ++ post
        = pre ++ MARKER_START ++ mid ++ MARKER_END ++ post := by
      rw [hf]; simp [List.append_assoc]
    rw [if_pos hcontent, if_pos hf, hcontent]
  · have hcontent : ¬ (pre ++ frag ++ post
        = pre ++ MARKER_START ++ mid ++ MARKER_END ++ post) := by
      intro hc
      apply hf
      have h1 : pre ++ (frag ++ post)
          = pre ++ ((MARKER_START ++ mid ++ MARKER_END) ++ post) := by
        rw [← List.append_assoc]
        rw [hc]
        simp [List.append_assoc]
      have h2 := List.append_cancel_left h1
      exact List.append_cancel_right h2
    rw [if_neg hcontent, if_neg hf]

/-- C8 witness: a concrete single-span document patched with a fragment. -/
theorem update_index_html_single_span_witness :
    update_index_html "NEW".toList
        ("A".toList ++ MARKER_START ++ "old".toList ++ MARKER_END ++ "B".toList)
      = (if "NEW".toList = MARKER_START ++ "old".toList ++ MARKER_END
           then false else true,
         "A".toList ++ "NEW".toList ++ "B".toList) :=
  update_index_html_single_span "A".toList "old".toList "B".toList "NEW".toList
    (by decide) (by decide) (by decide)

/-- C9: when the markers are absent the patcher reports no change and the
content is left exactly as it was (and, the function being total, no
exception is modeled); likewise when the replacement result is
byte-identical to the current content, nothing is written. -/
theorem update_index_html_noop (frag content : List Char) :
    (hasMarkerSpan content = false →
      update_index_html frag content = (false, content)) ∧
    (replaceSpans frag content = content →
      update_index_html frag content = (false, content)) := by
  constructor
  · intro h
    unfold update_index_html
    rw [h]
    rfl
  · intro h
    unfold update_index_html
    by_cases hs : hasMarkerSpan content = true
    · rw [hs, h]
      simp
    · have hs2 : hasMarkerSpan content = false := by simpa using hs
      rw [hs2]
      rfl

/-- C9 witness: a marker-free document, and a document whose replacement
is byte-identical (the fragment equals the whole single span). -/
theorem update_index_html_noop_witness :
    update_index_html "F".toList "no markers here".toList
        = (false, "no markers here".toList) ∧
      update_index_html (MARKER_START ++ "F".toList ++ MARKER_END)
          (MARKER_START ++ "F".toList ++ MARKER_END)
        = (false, MARKER_START ++ "F".toList ++ MARKER_END) :=
  ⟨(update_index_html_noop _ _).1 (by decide),
   (update_index_html_noop _ _).2 (by decide)⟩

theorem takeWhile_ne_append (u w : List Char) :
    (u ++ '\n' :: w).takeWhile (fun c => c != '\n')
      = u.takeWhile (fun c => c != '\n') := by
  induction u with
  | nil => simp [List.takeWhile_cons]
  | cons c u ih =>
    by_cases hc : c = '\n'
    · simp [List.takeWhile_cons, hc]
    · simp [List.takeWhile_cons, hc, ih]

theorem takeWhile_all {p : Char → Bool} {l : List Char}
    (h : ∀ c ∈ l, p c = true) : l.takeWhile p = l := by
  induction l with
  | nil => rfl
  | cons c l ih =>
    rw [List.takeWhile_cons, if_pos (h c (List.mem_cons_self c l))]
    rw [ih (fun d hd => h d (List.mem_cons_of_mem c hd))]

theorem joinLines_cons_of_ne (x : List Char) (ys : List (List Char))
    (h : ys ≠ []) : joinLines (x :: ys) = x ++ '\n' :: joinLines ys := by
  cases ys with
  | nil => exact absurd rfl h
  | cons y ys => rfl

theorem firstLine_append (u w : List Char) :
    firstLine (u ++ '\n' :: w) = u.takeWhile (fun c => c != '\n') := by
  unfold firstLine
  exact takeWhile_ne_append u w

theorem lastLine_cons_newline (X M : List Char) :
    lastLine (X ++ '\n' :: M) = lastLine M := by
  unfold lastLine
  have h1 : (X ++ '\n' :: M).reverse = M.reverse ++ '\n' :: X.reverse := by
    simp
  rw [h1, takeWhile_ne_append]

theorem lastLine_joinLines (ls : List (List Char)) (G : List Char) :
    lastLine (joinLines (ls ++ [G])) = lastLine G := by
  induction ls with
  | nil => rfl
  | cons x xs ih =>
    rw [List.cons_append, joinLines_cons_of_ne x (xs ++ [G]) (by simp),
      lastLine_cons_newline, ih]

theorem firstLine_joinLines (a : List Char) (ls : List (List Char))
    (ha : ∀ c ∈ a, (c != '\n') = true) (h : ls ≠ []) :
    firstLine (joinLines (a :: ls)) = a := by
  rw [joinLines_cons_of_ne a ls h, firstLine_append, takeWhile_all ha]

/-- C10: for every item list the rendered fragment's first line contains
the start marker and its last line contains the end marker, so a patched
document keeps both markers for future runs. -/
theorem render_news_html_markers (items : List NewsItem) :
    containsLit MARKER_START (firstLine (render_news_html items)) = true ∧
      containsLit MARKER_END (lastLine (render_news_html items)) = true := by
  constructor
  · have hr : render_news_html items
        = joinLines ("                <!-- NEWS_START -->".toList ::
            (["                <div class=\"news\">".toList,
              "                    <h2>News</h2>".toList,
              "                    <ul>".toList]
             ++ items.map renderItem ++ footerLines)) := rfl
    rw [hr, firstLine_joinLines _ _ (by decide) (by simp [footerLines])]
    decide
  · have hr : render_news_html items
        = joinLines ((headerLines ++ items.map renderItem
            ++ ["                    </ul>".toList, "                </div>".toList])
            ++ ["                <!-- NEWS_END -->".toList]) := by
      unfold render_news_html footerLines
      simp [List.append_assoc]
    rw [hr, lastLine_joinLines]
    decide

end UpdateNews
